import Mathlib

/-!
Shallow embedding of the TradeFox lot-tracking ledger engine.

Sources:
* `PortfolioService` (src/unnamed/part_004): `recalculateAverageCostFIFO`,
  `updatePortfolio`, `getPortfolio`, `getAssetBalance`, `updateUSDCBalance`.
* `PnLService` (embedded in src/public/services/__tests__/trade_service.test.ts,
  after the document separator): `calculateRealizedPnL`, `calculateUnrealizedPnL`,
  `getPnL`.
* `TradeService.createOrder` (src/public/services/trade_service.ts, the
  balance-validating version at lines 143-237).
* `PythClient.getPrice` (src/public/clients/pyth.ts).

Modelling conventions: JavaScript numbers are modelled as exact rationals (ℚ);
the SQL `trades` table for one (user, asset) is modelled as the ordered list of
executed trades threaded explicitly; `throw` is modelled as `Except.error`, and
the sequencing of independent `db.query` writes (there is no transaction in the
code) is modelled by threading the state through each step so that an error
keeps the writes already performed.  Asset ids and symbols are identified
(the `assets` table join is a bijective lookup, out of scope).
-/

namespace TradeFox

/-- Trade side, the `side` column: `'buy' | 'sell'`. -/
inductive Side where
  | buy
  | sell
deriving DecidableEq, Repr

/-- One executed trade for a fixed (user, asset): `price`, `base_quantity`,
`side`, in `created_at` order.  (Mirrors the row shape read by
`recalculateAverageCostFIFO`.) -/
structure Trade where
  side : Side
  quantity : ℚ
  price : ℚ
deriving DecidableEq, Repr

/-- An open cost lot: an element of the in-memory
`positionQueue : Array<{ quantity, price }>`. -/
structure Lot where
  quantity : ℚ
  price : ℚ
deriving DecidableEq, Repr

/-- A portfolio row for one (user, asset): `quantity`, `avg_buying_price`. -/
structure Position where
  quantity : ℚ
  avgBuyingPrice : ℚ
deriving DecidableEq, Repr

/-- Sum of remaining lot quantities of a queue. -/
def queueQty (q : List Lot) : ℚ :=
  (q.map (fun l => l.quantity)).sum

/-- Sum of `quantity * price` over the lots of a queue (`totalCost` in
`recalculateAverageCostFIFO`). -/
def queueCost (q : List Lot) : ℚ :=
  (q.map (fun l => l.quantity * l.price)).sum

/-- The sell-matching loop of `recalculateAverageCostFIFO`:
`while (remainingSellQuantity > 0 && positionQueue.length > 0)` — a head lot
with `quantity <= remaining` is shifted off, otherwise it is shrunk in place
and the loop stops. -/
def consumeFIFO : List Lot → ℚ → List Lot
  | [], _ => []
  | l :: rest, r =>
    if r ≤ 0 then l :: rest
    else if l.quantity ≤ r then consumeFIFO rest (r - l.quantity)
    else { l with quantity := l.quantity - r } :: rest

/-- One iteration of the replay loop of `recalculateAverageCostFIFO`:
a buy pushes `{ quantity, price }` onto the queue tail, a sell runs the
FIFO-matching loop. -/
def applyTradeQueue (q : List Lot) (t : Trade) : List Lot :=
  match t.side with
  | .buy => q ++ [⟨t.quantity, t.price⟩]
  | .sell => consumeFIFO q t.quantity

/-- The lot queue obtained by replaying an ordered trade history from an empty
queue (the loop body of `recalculateAverageCostFIFO`). -/
def replayQueue (trades : List Trade) : List Lot :=
  trades.foldl applyTradeQueue []

/-- Embedding of `PortfolioService.recalculateAverageCostFIFO` (part_004 lines 10-77):
replay all executed trades of the (user, asset) through a fresh FIFO queue and
return `totalQuantity > 0 ? totalCost / totalQuantity : 0`.  (The
`expectedRemainingQuantity` comparison only emits a `console.warn` and does not
affect the returned value.) -/
def recalculateAverageCostFIFO (trades : List Trade) : ℚ :=
  let q := replayQueue trades
  if 0 < queueQty q then queueCost q / queueQty q else 0

/-- Embedding of `PortfolioService.updatePortfolio` (part_004 lines 79-154) for one
(user, asset).  `history` is the content of the `trades` table for that
(user, asset) at call time — in `createOrder` the trade row is inserted
*before* `updatePortfolio` runs, so `history` includes the trade being
applied.  `pos` is the current portfolio row (`none` = no row). -/
def updatePortfolio (history : List Trade) (pos : Option Position)
    (quantity price : ℚ) (side : Side) : Except String (Option Position) :=
  match pos with
  | none =>
    match side with
    | .buy => .ok (some ⟨quantity, price⟩)
    | .sell => .error "Insufficient balance for sell order"
  | some current =>
    match side with
    | .buy =>
      let totalCost := current.quantity * current.avgBuyingPrice + quantity * price
      let newQuantity := current.quantity + quantity
      .ok (some ⟨newQuantity, totalCost / newQuantity⟩)
    | .sell =>
      if current.quantity < quantity then
        .error "Insufficient balance for sell order"
      else
        let newQuantity := current.quantity - quantity
        if newQuantity = 0 then
          .ok none
        else
          .ok (some ⟨newQuantity, recalculateAverageCostFIFO history⟩)

/-- Run a list of trades through `updatePortfolio` one at a time, threading the
persisted trade history (`hist`, the rows already in the `trades` table) and
the current portfolio row.  Each trade is inserted into the history before
`updatePortfolio` is called, exactly as `createOrder` does. -/
def processFrom (hist : List Trade) (pos : Option Position) :
    List Trade → Except String (Option Position)
  | [] => .ok pos
  | t :: ts =>
    match updatePortfolio (hist ++ [t]) pos t.quantity t.price t.side with
    | .error e => .error e
    | .ok pos' => processFrom (hist ++ [t]) pos' ts

/-- The incrementally maintained portfolio row after a whole trade sequence,
starting from no position and an empty trade table. -/
def processTrades (ts : List Trade) : Except String (Option Position) :=
  processFrom [] none ts

/-- The position aggregate read off a lot queue: absent when the total
quantity is zero, otherwise `(Σ qty, Σ qty*price / Σ qty)`. -/
def posOfQueue (q : List Lot) : Option Position :=
  if queueQty q = 0 then none
  else some ⟨queueQty q, queueCost q / queueQty q⟩

/-- A trade sequence is valid from held quantity `q` when every trade has
strictly positive quantity and price (the validated-shape precondition) and
every sell does not exceed the quantity held at that point (so the whole
sequence is accepted). -/
def validFrom : ℚ → List Trade → Bool
  | _, [] => true
  | q, t :: ts =>
    decide (0 < t.quantity) && decide (0 < t.price) &&
    match t.side with
    | .buy => validFrom (q + t.quantity) ts
    | .sell => decide (t.quantity ≤ q) && validFrom (q - t.quantity) ts

/-- A trade sequence accepted in full starting from an empty position. -/
def validTrades (ts : List Trade) : Bool :=
  validFrom 0 ts

/-! ### PnLService (multi-asset realized PnL)

`calculateRealizedPnL` walks the user's whole executed-trade history in
`created_at` order, keeping one FIFO lot queue per base symbol
(`Map<string, Array<{quantity, price}>>`) and a running `realizedPnL` sum. -/

/-- A row of the user-wide trade query of `calculateRealizedPnL`:
`base_symbol`, `price`, `base_quantity`, `side`. -/
structure MTrade where
  baseSymbol : String
  side : Side
  baseQuantity : ℚ
  price : ℚ
deriving DecidableEq, Repr

/-- Forget the symbol of a user-wide trade row. -/
def MTrade.toTrade (t : MTrade) : Trade :=
  ⟨t.side, t.baseQuantity, t.price⟩

/-- Pointwise update of a keyed store (one entry of the `Map` / one SQL row). -/
def updateMap {α : Type} (f : String → α) (k : String) (v : α) : String → α :=
  fun s => if s = k then v else f s

/-- The sell branch of `calculateRealizedPnL`: the same FIFO-matching loop as
`consumeFIFO`, additionally accumulating
`(price - position.price) * consumedQuantity` for every consumed fragment.
Returns the realized-PnL delta of this sell and the remaining queue. -/
def consumePnL (price : ℚ) : List Lot → ℚ → ℚ × List Lot
  | [], _ => (0, [])
  | l :: rest, r =>
    if r ≤ 0 then (0, l :: rest)
    else if l.quantity ≤ r then
      let res := consumePnL price rest (r - l.quantity)
      ((price - l.price) * l.quantity + res.1, res.2)
    else ((price - l.price) * r, { l with quantity := l.quantity - r } :: rest)

/-- One iteration of the `calculateRealizedPnL` loop over the per-symbol queue
map paired with the running `realizedPnL`. -/
def pnlStep (st : (String → List Lot) × ℚ) (t : MTrade) : (String → List Lot) × ℚ :=
  let queue := st.1 t.baseSymbol
  match t.side with
  | .buy => (updateMap st.1 t.baseSymbol (queue ++ [⟨t.baseQuantity, t.price⟩]), st.2)
  | .sell =>
    let r := consumePnL t.price queue t.baseQuantity
    (updateMap st.1 t.baseSymbol r.2, st.2 + r.1)

/-- Embedding of `PnLService.calculateRealizedPnL`: fold the user's executed trades over the
per-symbol FIFO queues, returning the accumulated realized PnL.  (An unmatched
sell remainder only triggers `console.warn` and contributes nothing.) -/
def calculateRealizedPnL (trades : List MTrade) : ℚ :=
  (trades.foldl pnlStep (fun _ => [], 0)).2

/-! Specification-side restatement of realized PnL: each sell consumes a list
of explicit lot *fragments* in FIFO order, and realized PnL is the sum over
all sells of `(sell_price - fragment_entry_price) * consumed_quantity`. -/

/-- The `(consumed_quantity, entry_price)` fragments a sell of size `r`
consumes from a queue, oldest lot first. -/
def fragments : List Lot → ℚ → List (ℚ × ℚ)
  | [], _ => []
  | l :: rest, r =>
    if r ≤ 0 then []
    else if l.quantity ≤ r then (l.quantity, l.price) :: fragments rest (r - l.quantity)
    else [(r, l.price)]

/-- Sum `Σ (sell_price - entry_price) × consumed_quantity` over a fragment list. -/
def fragmentsPnL (price : ℚ) (fs : List (ℚ × ℚ)) : ℚ :=
  (fs.map (fun f => (price - f.2) * f.1)).sum

/-- Specification-side realized PnL: walk the history with per-symbol lot
queues evolved by `applyTradeQueue`, summing the fragment PnL of every sell. -/
def specRealizedPnL : (String → List Lot) → List MTrade → ℚ
  | _, [] => 0
  | qs, t :: ts =>
    (match t.side with
     | .buy => 0
     | .sell => fragmentsPnL t.price (fragments (qs t.baseSymbol) t.baseQuantity)) +
    specRealizedPnL (updateMap qs t.baseSymbol (applyTradeQueue (qs t.baseSymbol) t.toTrade)) ts

/-! ### Mark-to-market (`getPortfolio`, `calculateUnrealizedPnL`, `getPnL`) -/

/-- A row of the `getPortfolio` SQL result: `asset_symbol`, `quantity`,
`avg_buying_price` (the query itself filters `p.quantity > 0`). -/
structure PortfolioRow where
  symbol : String
  quantity : ℚ
  avgBuyingPrice : ℚ
deriving DecidableEq, Repr

/-- One element of the `holdings` array built by `getPortfolio`. -/
structure Holding where
  symbol : String
  quantity : ℚ
  avgBuyingPrice : ℚ
  currentPrice : ℚ
  unrealizedPnl : ℚ
deriving DecidableEq, Repr

/-- Embedding of `PortfolioService.getPortfolio` (part_004 lines 156-200): over the rows
with positive quantity, a `'USDC'` row sets `usdcBalance` and is skipped from
`holdings`; any other row is priced by the price collaborator and yields
`unrealized_pnl = (current_price - avg_buying_price) * quantity`. -/
def getPortfolio (rows : List PortfolioRow) (price : String → ℚ) :
    List Holding × ℚ :=
  let live := rows.filter (fun r => 0 < r.quantity)
  (live.filterMap (fun r =>
      if r.symbol = "USDC" then none
      else some ⟨r.symbol, r.quantity, r.avgBuyingPrice, price r.symbol,
                 (price r.symbol - r.avgBuyingPrice) * r.quantity⟩),
   (live.filter (fun r => r.symbol = "USDC")).foldl (fun _ r => r.quantity) 0)

/-- Embedding of `PnLService.calculateUnrealizedPnL`: `holdings.reduce((tot, h) => tot +
h.unrealized_pnl, 0)`. -/
def calculateUnrealizedPnL (rows : List PortfolioRow) (price : String → ℚ) : ℚ :=
  (((getPortfolio rows price).1).map (fun h => h.unrealizedPnl)).sum

/-- The `PnLResponse` returned by `PnLService.getPnL`. -/
structure PnLResponse where
  realizedPnl : ℚ
  unrealizedPnl : ℚ
  totalPnl : ℚ
deriving DecidableEq, Repr

/-- Embedding of `PnLService.getPnL`: realized PnL from the trade history, unrealized from
the current portfolio rows, `total_pnl` their sum. -/
def getPnL (trades : List MTrade) (rows : List PortfolioRow)
    (price : String → ℚ) : PnLResponse :=
  let realizedPnL := calculateRealizedPnL trades
  let unrealizedPnL := calculateUnrealizedPnL rows price
  ⟨realizedPnL, unrealizedPnL, realizedPnL + unrealizedPnL⟩

/-! ### `TradeService.createOrder` with USDC settlement -/

/-- Embedding of `PortfolioService.updateUSDCBalance` (part_004 lines 229-291), acting on
the USDC portfolio row: a sell adds `quote_quantity` (inserting
`avg_buying_price = 1` when no row exists), a buy deducts it, throwing when
the balance would go negative and deleting the row when it reaches zero. -/
def updateUSDCBalance (pos : Option Position) (quoteQuantity : ℚ)
    (side : Side) : Except String (Option Position) :=
  match pos with
  | none =>
    match side with
    | .sell => .ok (some ⟨quoteQuantity, 1⟩)
    | .buy => .error "Insufficient USDC balance"
  | some current =>
    match side with
    | .buy =>
      let newQuantity := current.quantity - quoteQuantity
      if newQuantity < 0 then .error "Insufficient USDC balance"
      else if newQuantity = 0 then .ok none
      else .ok (some ⟨newQuantity, current.avgBuyingPrice⟩)
    | .sell =>
      .ok (some ⟨current.quantity + quoteQuantity, current.avgBuyingPrice⟩)

/-- Persistent state of one user: the executed rows of the `trades` table in
`created_at` order, and the `portfolio` table keyed by asset symbol. -/
structure AccountState where
  trades : List MTrade
  portfolio : String → Option Position

/-- Embedding of `PortfolioService.getAssetBalance`: the `quantity` of the portfolio row,
`0` when no row exists. -/
def getAssetBalance (st : AccountState) (symbol : String) : ℚ :=
  match st.portfolio symbol with
  | none => 0
  | some p => p.quantity

/-- The trade history `recalculateAverageCostFIFO` reads for one asset:
the user's executed trades filtered to that `base_asset_id`. -/
def historyFor (trades : List MTrade) (symbol : String) : List Trade :=
  (trades.filter (fun t => t.baseSymbol = symbol)).map MTrade.toTrade

/-- Embedding of `TradeService.createOrder` (validating version, trade_service.ts lines
143-237), for one user.  Steps in source order: compute
`quote_quantity = price * base_quantity`; validate the quote (buy) or base
(sell) balance; insert the trade row with status `'EXECUTED'`; run
`updatePortfolio` on the base asset; run `updateUSDCBalance` on the quote
asset.  Each `db.query` write is an independent statement (no transaction),
so a thrown error keeps the writes already performed; the result pairs the
resulting state with the thrown error message, if any. -/
def createOrder (st : AccountState) (baseSymbol quoteSymbol : String)
    (price baseQuantity : ℚ) (side : Side) : AccountState × Option String :=
  let quoteQuantity := price * baseQuantity
  match side with
  | .buy =>
    if getAssetBalance st quoteSymbol < quoteQuantity then
      (st, some "Insufficient quote balance")
    else
      createOrderExec st baseSymbol quoteSymbol price baseQuantity .buy
  | .sell =>
    if getAssetBalance st baseSymbol < baseQuantity then
      (st, some "Insufficient base balance")
    else
      createOrderExec st baseSymbol quoteSymbol price baseQuantity .sell
where
  /-- The post-validation tail of `createOrder`: insert, update base
  portfolio, settle USDC. -/
  createOrderExec (st : AccountState) (baseSymbol quoteSymbol : String)
      (price baseQuantity : ℚ) (side : Side) : AccountState × Option String :=
    let quoteQuantity := price * baseQuantity
    let st1 : AccountState :=
      { st with trades := st.trades ++ [⟨baseSymbol, side, baseQuantity, price⟩] }
    match updatePortfolio (historyFor st1.trades baseSymbol)
        (st1.portfolio baseSymbol) baseQuantity price side with
    | .error e => (st1, some e)
    | .ok newBase =>
      let st2 : AccountState :=
        { st1 with portfolio := updateMap st1.portfolio baseSymbol newBase }
      match updateUSDCBalance (st2.portfolio quoteSymbol) quoteQuantity side with
      | .error e => (st2, some e)
      | .ok newQuote =>
        ({ st2 with portfolio := updateMap st2.portfolio quoteSymbol newQuote }, none)

/-! ### Rejection-tolerant request sequences (conservation) -/

/-- Quantity of an optional position (`0` when absent). -/
def posQty (pos : Option Position) : ℚ :=
  match pos with
  | none => 0
  | some p => p.quantity

/-- Apply a sequence of trade requests for one (user, asset) through
`updatePortfolio`, skipping rejected requests: a rejected trade is never
inserted into the trade table (validation precedes the insert) and leaves the
position unchanged.  Returns the accepted (persisted) trades and the final
position. -/
def applyRequests : List Trade → List Trade → Option Position →
    List Trade × Option Position
  | [], acc, pos => (acc, pos)
  | t :: ts, acc, pos =>
    match updatePortfolio (acc ++ [t]) pos t.quantity t.price t.side with
    | .ok pos' => applyRequests ts (acc ++ [t]) pos'
    | .error _ => applyRequests ts acc pos

/-- Total bought quantity of a trade list. -/
def sumBuyQty (ts : List Trade) : ℚ :=
  ((ts.filter (fun t => t.side = .buy)).map (fun t => t.quantity)).sum

/-- Total sold quantity of a trade list. -/
def sumSellQty (ts : List Trade) : ℚ :=
  ((ts.filter (fun t => t.side = .sell)).map (fun t => t.quantity)).sum

/-! ### `PythClient.getPrice` -/

/-- Outcome of the external `fetch` of the Pyth API, as observed by
`getPrice`: a thrown network error, a non-OK HTTP status (which `getPrice`
turns into a thrown error inside the `try`), a payload without
`parsed[0].price.price` (malformed), or a parsed price mantissa and
exponent. -/
inductive FetchOutcome where
  | fetchError
  | httpError (status : Nat)
  | malformed
  | parsedOk (priceValue : ℚ) (expo : ℤ)
deriving DecidableEq, Repr

/-- Membership in `PRICE_FEED_IDS`: the symbols with a configured Pyth feed id. -/
def hasPriceFeedId (symbol : String) : Bool :=
  symbol = "BTC" || symbol = "ETH" || symbol = "SOL"

/-- Embedding of `FALLBACK_PRICES[symbol] || 0`: the static fallback price. -/
def fallbackPrice (symbol : String) : ℚ :=
  if symbol = "BTC" then 90000
  else if symbol = "ETH" then 3000
  else if symbol = "SOL" then 120
  else 0

/-- One entry of the in-memory `priceCache`. -/
structure CacheEntry where
  price : ℚ
  timestamp : ℤ
deriving DecidableEq, Repr

/-- The `try`-block of `PythClient.getPrice` after the cache miss: look up the
feed id (missing id returns the fallback without throwing), perform the fetch
(`fetchError` rethrows, a non-OK response throws `Pyth API returned ...`),
parse the payload (missing data returns the fallback), otherwise return
`priceValue * 10^expo`.  `Except.error` models a throw escaping the `try`. -/
def getPriceAttempt (symbol : String) (fetch : FetchOutcome) :
    Except String (Option ℚ) :=
  if hasPriceFeedId symbol then
    match fetch with
    | .fetchError => .error "fetch failed"
    | .httpError _ => .error "Pyth API returned non-OK status"
    | .malformed => .ok none
    | .parsedOk priceValue expo => .ok (some (priceValue * (10 : ℚ) ^ expo))
  else .ok none

/-- Embedding of `PythClient.getPrice`: return the cached price when it is younger than the
TTL; otherwise attempt the fetch, caching and returning the parsed price on
success and returning `FALLBACK_PRICES[symbol] || 0` on every failure
(missing feed id, thrown fetch error, non-OK response, malformed payload).
Returns the price and the updated cache; no error propagates. -/
def getPrice (cache : String → Option CacheEntry) (now ttl : ℤ)
    (symbol : String) (fetch : FetchOutcome) :
    ℚ × (String → Option CacheEntry) :=
  match cache symbol with
  | some c =>
    if now - c.timestamp < ttl then (c.price, cache)
    else getPriceFetch cache now symbol fetch
  | none => getPriceFetch cache now symbol fetch
where
  /-- The cache-miss path: run the `try`-block and catch any thrown error. -/
  getPriceFetch (cache : String → Option CacheEntry) (now : ℤ)
      (symbol : String) (fetch : FetchOutcome) :
      ℚ × (String → Option CacheEntry) :=
    match getPriceAttempt symbol fetch with
    | .ok (some p) =>
      (p, fun s => if s = symbol then some ⟨p, now⟩ else cache s)
    | .ok none => (fallbackPrice symbol, cache)
    | .error _ => (fallbackPrice symbol, cache)

/-! ### Queue lemmas -/

/-- Every lot of a queue has strictly positive remaining quantity (the lot
queue invariant). -/
def lotsPos (q : List Lot) : Prop :=
  ∀ l ∈ q, 0 < l.quantity

theorem queueQty_nil : queueQty [] = 0 := rfl

theorem queueQty_cons (l : Lot) (rest : List Lot) :
    queueQty (l :: rest) = l.quantity + queueQty rest := by
  simp [queueQty]

theorem queueQty_append (q : List Lot) (l : Lot) :
    queueQty (q ++ [l]) = queueQty q + l.quantity := by
  simp [queueQty]

theorem queueCost_append (q : List Lot) (l : Lot) :
    queueCost (q ++ [l]) = queueCost q + l.quantity * l.price := by
  simp [queueCost]

theorem queueQty_nonneg (q : List Lot) (h : lotsPos q) : 0 ≤ queueQty q := by
  induction q with
  | nil => simp [queueQty]
  | cons l rest ih =>
    rw [queueQty_cons]
    have h1 : 0 < l.quantity := h l (List.mem_cons_self _ _)
    have h2 : 0 ≤ queueQty rest := ih (fun x hx => h x (List.mem_cons_of_mem _ hx))
    linarith

theorem eq_nil_of_queueQty_eq_zero (q : List Lot) (h : lotsPos q)
    (hz : queueQty q = 0) : q = [] := by
  cases q with
  | nil => rfl
  | cons l rest =>
    exfalso
    have h1 : 0 < l.quantity := h l (List.mem_cons_self _ _)
    have h2 : 0 ≤ queueQty rest :=
      queueQty_nonneg rest (fun x hx => h x (List.mem_cons_of_mem _ hx))
    rw [queueQty_cons] at hz
    linarith

theorem lotsPos_consumeFIFO (q : List Lot) (r : ℚ) (h : lotsPos q) :
    lotsPos (consumeFIFO q r) := by
  induction q generalizing r with
  | nil => simpa [consumeFIFO] using h
  | cons l rest ih =>
    have hl : 0 < l.quantity := h l (List.mem_cons_self _ _)
    have hrest : lotsPos rest := fun x hx => h x (List.mem_cons_of_mem _ hx)
    simp only [consumeFIFO]
    by_cases h1 : r ≤ 0
    · simpa [h1] using h
    · simp only [if_neg h1]
      by_cases h2 : l.quantity ≤ r
      · simpa [h2] using ih (r - l.quantity) hrest
      · simp only [if_neg h2]
        intro x hx
        rcases List.mem_cons.mp hx with hx | hx
        · subst hx
          have : r < l.quantity := lt_of_not_le h2
          simpa using sub_pos.mpr this
        · exact hrest x hx

theorem queueQty_consumeFIFO (q : List Lot) (r : ℚ) (h : lotsPos q)
    (hr0 : 0 ≤ r) (hr : r ≤ queueQty q) :
    queueQty (consumeFIFO q r) = queueQty q - r := by
  induction q generalizing r with
  | nil =>
    have : r = 0 := le_antisymm (by simpa [queueQty] using hr) hr0
    simp [consumeFIFO, queueQty, this]
  | cons l rest ih =>
    have hrest : lotsPos rest := fun x hx => h x (List.mem_cons_of_mem _ hx)
    simp only [consumeFIFO]
    by_cases h1 : r ≤ 0
    · have : r = 0 := le_antisymm h1 hr0
      simp [this]
    · simp only [if_neg h1]
      by_cases h2 : l.quantity ≤ r
      · simp only [if_pos h2]
        rw [queueQty_cons] at hr
        rw [ih (r - l.quantity) hrest (by linarith) (by linarith)]
        rw [queueQty_cons]
        ring
      · simp only [if_neg h2]
        rw [queueQty_cons, queueQty_cons]
        simp only []
        ring

theorem replayQueue_append_single (hist : List Trade) (t : Trade) :
    replayQueue (hist ++ [t]) = applyTradeQueue (replayQueue hist) t := by
  simp [replayQueue, List.foldl_append]

theorem lotsPos_replayQueue (ts : List Trade)
    (h : ∀ t ∈ ts, 0 < t.quantity) : lotsPos (replayQueue ts) := by
  suffices H : ∀ (ts : List Trade) (q : List Lot), lotsPos q →
      (∀ t ∈ ts, 0 < t.quantity) → lotsPos (ts.foldl applyTradeQueue q) by
    exact H ts [] (by intro l hl; simp at hl) h
  intro ts
  induction ts with
  | nil => intro q hq _; simpa using hq
  | cons t rest ih =>
    intro q hq hpos
    have ht : 0 < t.quantity := hpos t (List.mem_cons_self _ _)
    have hrest : ∀ x ∈ rest, 0 < x.quantity :=
      fun x hx => hpos x (List.mem_cons_of_mem _ hx)
    simp only [List.foldl_cons]
    apply ih _ _ hrest
    cases hside : t.side with
    | buy =>
      simp only [applyTradeQueue, hside]
      intro x hx
      rcases List.mem_append.mp hx with hx | hx
      · exact hq x hx
      · simp at hx; subst hx; simpa using ht
    | sell =>
      simp only [applyTradeQueue, hside]
      exact lotsPos_consumeFIFO q t.quantity hq

/-- Core refinement lemma: starting from the position aggregate of the replay
queue of the persisted history, running any accepted trade suffix through
`updatePortfolio` lands exactly on the position aggregate of the extended
replay queue. -/
theorem processFrom_replay (ts : List Trade) : ∀ (hist : List Trade),
    (∀ t ∈ hist, 0 < t.quantity) →
    validFrom (queueQty (replayQueue hist)) ts = true →
    processFrom hist (posOfQueue (replayQueue hist)) ts
      = .ok (posOfQueue (replayQueue (hist ++ ts))) := by
  induction ts with
  | nil =>
    intro hist _ _
    simp [processFrom]
  | cons t rest ih =>
    intro hist hhist hvalid
    obtain ⟨side, tq, tp⟩ := t
    have hhist' : ∀ x ∈ hist ++ [⟨side, tq, tp⟩], 0 < x.quantity := by
      intro x hx
      rcases List.mem_append.mp hx with hx | hx
      · exact hhist x hx
      · simp at hx
        subst hx
        simp only [validFrom, Bool.and_eq_true, decide_eq_true_eq] at hvalid
        exact hvalid.1.1
    have hlots : lotsPos (replayQueue hist) := lotsPos_replayQueue hist hhist
    have hQnn : 0 ≤ queueQty (replayQueue hist) := queueQty_nonneg _ hlots
    cases side with
    | buy =>
      simp only [validFrom, Bool.and_eq_true, decide_eq_true_eq] at hvalid
      obtain ⟨⟨htq, htp⟩, hrest⟩ := hvalid
      have hnew : replayQueue (hist ++ [⟨.buy, tq, tp⟩])
          = replayQueue hist ++ [⟨tq, tp⟩] := by
        rw [replayQueue_append_single]; rfl
      have hq' : queueQty (replayQueue (hist ++ [⟨.buy, tq, tp⟩]))
          = queueQty (replayQueue hist) + tq := by
        rw [hnew, queueQty_append]
      have hstep : updatePortfolio (hist ++ [⟨.buy, tq, tp⟩])
          (posOfQueue (replayQueue hist)) tq tp .buy
          = .ok (posOfQueue (replayQueue (hist ++ [⟨.buy, tq, tp⟩]))) := by
        rw [hnew]
        by_cases hz : queueQty (replayQueue hist) = 0
        · have hnil : replayQueue hist = [] :=
            eq_nil_of_queueQty_eq_zero _ hlots hz
          rw [hnil]
          have h1 : queueQty ([] ++ [(⟨tq, tp⟩ : Lot)]) = tq := by
            simp [queueQty]
          have h2 : queueCost ([] ++ [(⟨tq, tp⟩ : Lot)]) = tq * tp := by
            simp [queueCost]
          rw [posOfQueue, if_pos queueQty_nil, updatePortfolio]
          rw [posOfQueue, h1, h2, if_neg (ne_of_gt htq)]
          rw [mul_div_cancel_left₀ tp (ne_of_gt htq)]
        · rw [posOfQueue, if_neg hz, updatePortfolio]
          have hQtq : queueQty (replayQueue hist) + tq ≠ 0 := by
            have := lt_of_lt_of_le htq (le_add_of_nonneg_left hQnn)
            exact ne_of_gt this
          rw [posOfQueue, queueQty_append, queueCost_append, if_neg hQtq]
          have hnum : queueQty (replayQueue hist) *
              (queueCost (replayQueue hist) / queueQty (replayQueue hist))
              = queueCost (replayQueue hist) := by
            rw [mul_comm, div_mul_cancel₀ _ hz]
          simp only [hnum]
      simp only [processFrom, hstep]
      have hres := ih (hist ++ [⟨.buy, tq, tp⟩]) hhist' (by rw [hq']; exact hrest)
      rw [hres]
      simp
    | sell =>
      simp only [validFrom, Bool.and_eq_true, decide_eq_true_eq] at hvalid
      obtain ⟨⟨htq, htp⟩, hle, hrest⟩ := hvalid
      have hQpos : 0 < queueQty (replayQueue hist) := lt_of_lt_of_le htq hle
      have hz : queueQty (replayQueue hist) ≠ 0 := ne_of_gt hQpos
      have hnew : replayQueue (hist ++ [⟨.sell, tq, tp⟩])
          = consumeFIFO (replayQueue hist) tq := by
        rw [replayQueue_append_single]; rfl
      have hq' : queueQty (replayQueue (hist ++ [⟨.sell, tq, tp⟩]))
          = queueQty (replayQueue hist) - tq := by
        rw [hnew]
        exact queueQty_consumeFIFO _ tq hlots (le_of_lt htq) hle
      have hstep : updatePortfolio (hist ++ [⟨.sell, tq, tp⟩])
          (posOfQueue (replayQueue hist)) tq tp .sell
          = .ok (posOfQueue (replayQueue (hist ++ [⟨.sell, tq, tp⟩]))) := by
        rw [posOfQueue, if_neg hz, updatePortfolio]
        simp only [not_lt.mpr hle, if_false]
        by_cases hzero : queueQty (replayQueue hist) - tq = 0
        · rw [if_pos hzero, posOfQueue, hq', if_pos hzero]
        · rw [if_neg hzero, posOfQueue, hq', if_neg hzero]
          have hsub : 0 < queueQty (replayQueue hist) - tq :=
            lt_of_le_of_ne (sub_nonneg.mpr hle) (Ne.symm hzero)
          rw [recalculateAverageCostFIFO]
          simp only [hq'.symm ▸ hsub, hq', if_pos hsub]
      simp only [processFrom, hstep]
      have hres := ih (hist ++ [⟨.sell, tq, tp⟩]) hhist' (by rw [hq']; exact hrest)
      rw [hres]
      simp



theorem validFrom_of_append (p r : List Trade) : ∀ q : ℚ,
    validFrom q (p ++ r) = true → validFrom q p = true := by
  induction p with
  | nil => intro q _; rfl
  | cons t ts ih =>
    intro q h
    obtain ⟨side, tq, tp⟩ := t
    cases side with
    | buy =>
      simp only [List.cons_append, validFrom, Bool.and_eq_true,
        decide_eq_true_eq] at h ⊢
      exact ⟨h.1, ih _ h.2⟩
    | sell =>
      simp only [List.cons_append, validFrom, Bool.and_eq_true,
        decide_eq_true_eq] at h ⊢
      exact ⟨h.1, h.2.1, ih _ h.2.2⟩


/-- C1: For every finite sequence of validated buy/sell trades on one
(user, asset), the incrementally maintained position kept by
`updatePortfolio` equals, after every prefix of the sequence, the
(quantity, average_cost) obtained by replaying that prefix through a fresh
FIFO lot queue from an empty state.  In ℚ the two agree exactly, which in
particular is within the 1e-8 absolute tolerance. -/
theorem c1_replay_equivalence (ts p : List Trade)
    (hvalid : validTrades ts = true) (hp : p <+: ts) :
    processTrades p = .ok (posOfQueue (replayQueue p)) := by
  obtain ⟨r, rfl⟩ := hp
  have hvp : validFrom 0 p = true := validFrom_of_append p r 0 hvalid
  have hmain := processFrom_replay p [] (by intro t ht; simp at ht)
    (by simpa [replayQueue, queueQty] using hvp)
  simpa [processTrades, replayQueue, posOfQueue, queueQty] using hmain

/-- Witness for C1 at the concrete history Buy(1 @ 40000), Buy(1 @ 42000),
Sell(1 @ 43000) and its two-trade prefix. -/
theorem c1_replay_equivalence_witness :
    validTrades [⟨.buy, 1, 40000⟩, ⟨.buy, 1, 42000⟩, ⟨.sell, 1, 43000⟩] = true ∧
    processTrades [⟨.buy, 1, 40000⟩, ⟨.buy, 1, 42000⟩]
      = .ok (posOfQueue (replayQueue [⟨.buy, 1, 40000⟩, ⟨.buy, 1, 42000⟩])) :=
  ⟨by norm_num [validTrades, validFrom],
   c1_replay_equivalence
     [⟨.buy, 1, 40000⟩, ⟨.buy, 1, 42000⟩, ⟨.sell, 1, 43000⟩]
     [⟨.buy, 1, 40000⟩, ⟨.buy, 1, 42000⟩]
     (by norm_num [validTrades, validFrom]) ⟨[⟨.sell, 1, 43000⟩], rfl⟩⟩

/-- C2: after the partial sell in Buy(1 @ 40000), Buy(1 @ 42000),
Sell(1 @ 43000), the position is quantity 1 at average cost 42000 — the
quantity-weighted mean entry price of the single remaining FIFO lot
(1 @ 42000), not the pre-sell average 41000 — and the realized PnL of the
sell is 3000. -/
theorem c2_cross_lot_sell :
    processTrades [⟨.buy, 1, 40000⟩, ⟨.buy, 1, 42000⟩, ⟨.sell, 1, 43000⟩]
      = .ok (some ⟨1, 42000⟩) ∧
    replayQueue [⟨.buy, 1, 40000⟩, ⟨.buy, 1, 42000⟩, ⟨.sell, 1, 43000⟩]
      = [⟨1, 42000⟩] ∧
    queueCost [⟨1, 42000⟩] / queueQty [⟨1, 42000⟩] = 42000 ∧
    calculateRealizedPnL
      [⟨"BTC", .buy, 1, 40000⟩, ⟨"BTC", .buy, 1, 42000⟩, ⟨"BTC", .sell, 1, 43000⟩]
      = 3000 := by
  refine ⟨?_, ?_, ?_, ?_⟩
  · norm_num [processTrades, processFrom, updatePortfolio, recalculateAverageCostFIFO,
      replayQueue, applyTradeQueue, consumeFIFO, queueQty, queueCost]
  · norm_num [replayQueue, applyTradeQueue, consumeFIFO]
  · norm_num [queueCost, queueQty]
  · norm_num [calculateRealizedPnL, pnlStep, consumePnL, updateMap]


/-- The single-sell loop of `calculateRealizedPnL` computes exactly the
fragment-sum PnL and evolves the queue exactly as the queue-only
FIFO-matching loop. -/
theorem consumePnL_eq (price : ℚ) (q : List Lot) : ∀ r : ℚ,
    consumePnL price q r = (fragmentsPnL price (fragments q r), consumeFIFO q r) := by
  induction q with
  | nil => intro r; simp [consumePnL, fragments, fragmentsPnL, consumeFIFO]
  | cons l rest ih =>
    intro r
    simp only [consumePnL, fragments, consumeFIFO]
    by_cases h1 : r ≤ 0
    · simp [h1, fragmentsPnL]
    · simp only [if_neg h1]
      by_cases h2 : l.quantity ≤ r
      · simp [h2, ih (r - l.quantity), fragmentsPnL]
      · simp [h2, fragmentsPnL]

/-- The realized-PnL fold equals the accumulator plus the fragment-sum
specification, for any starting queues and accumulator. -/
theorem foldl_pnlStep_eq (ts : List MTrade) : ∀ (qs : String → List Lot) (acc : ℚ),
    (ts.foldl pnlStep (qs, acc)).2 = acc + specRealizedPnL qs ts := by
  induction ts with
  | nil => intro qs acc; simp [specRealizedPnL]
  | cons t rest ih =>
    intro qs acc
    obtain ⟨sym, side, tq, tp⟩ := t
    cases side with
    | buy =>
      simp only [List.foldl_cons, pnlStep, specRealizedPnL, MTrade.toTrade,
        applyTradeQueue]
      rw [ih]
      ring
    | sell =>
      simp only [List.foldl_cons, pnlStep, specRealizedPnL, MTrade.toTrade,
        applyTradeQueue, consumePnL_eq]
      rw [ih]
      ring

/-- C3: the realized PnL computed by `calculateRealizedPnL` equals the sum,
over all sell trades and over the lot fragments each sell consumes in FIFO
order (oldest lot first, per asset), of
`(sell_price - fragment_entry_price) * consumed_quantity`; and for
Buy(1 @ 100), Buy(1 @ 110), Sell(1 @ 120) the realized PnL is 20 while the
remaining position is quantity 1 at average cost 110. -/
theorem c3_realized_pnl_fragment_sum :
    (∀ trades : List MTrade,
      calculateRealizedPnL trades = specRealizedPnL (fun _ => []) trades) ∧
    calculateRealizedPnL
      [⟨"BTC", .buy, 1, 100⟩, ⟨"BTC", .buy, 1, 110⟩, ⟨"BTC", .sell, 1, 120⟩] = 20 ∧
    processTrades [⟨.buy, 1, 100⟩, ⟨.buy, 1, 110⟩, ⟨.sell, 1, 120⟩]
      = .ok (some ⟨1, 110⟩) := by
  refine ⟨?_, ?_, ?_⟩
  · intro trades
    rw [calculateRealizedPnL, foldl_pnlStep_eq]
    ring
  · norm_num [calculateRealizedPnL, pnlStep, consumePnL, updateMap]
  · norm_num [processTrades, processFrom, updatePortfolio, recalculateAverageCostFIFO,
      replayQueue, applyTradeQueue, consumeFIFO, queueQty, queueCost]


/-- C6: selling exactly the full remaining quantity removes the portfolio row
(`DELETE`), for every current position, price and history — the position
becomes absent, not a zero-quantity row; concretely Buy(1 @ 100),
Sell(1 @ 120) leaves no position and realized PnL 20. -/
theorem c6_full_liquidation :
    (∀ (history : List Trade) (current : Position) (price : ℚ),
      updatePortfolio history (some current) current.quantity price .sell
        = .ok none) ∧
    processTrades [⟨.buy, 1, 100⟩, ⟨.sell, 1, 120⟩] = .ok none ∧
    calculateRealizedPnL [⟨"BTC", .buy, 1, 100⟩, ⟨"BTC", .sell, 1, 120⟩] = 20 := by
  refine ⟨?_, ?_, ?_⟩
  · intro history current price
    simp [updatePortfolio]
  · norm_num [processTrades, processFrom, updatePortfolio, recalculateAverageCostFIFO,
      replayQueue, applyTradeQueue, consumeFIFO, queueQty, queueCost]
  · norm_num [calculateRealizedPnL, pnlStep, consumePnL, updateMap]

/-- Exhausting sell: when the requested quantity is at least the whole queue,
the PnL loop liquidates every lot and ends with an empty queue. -/
theorem consumePnL_exhausts (price : ℚ) (q : List Lot) : ∀ r : ℚ,
    lotsPos q → queueQty q ≤ r → 0 < r →
    consumePnL price q r
      = ((q.map (fun l => (price - l.price) * l.quantity)).sum, []) := by
  induction q with
  | nil => intro r _ _ _; simp [consumePnL]
  | cons l rest ih =>
    intro r h hle hr
    have hl : 0 < l.quantity := h l (List.mem_cons_self _ _)
    have hrest : lotsPos rest := fun x hx => h x (List.mem_cons_of_mem _ hx)
    have hrq : 0 ≤ queueQty rest := queueQty_nonneg _ hrest
    rw [queueQty_cons] at hle
    simp only [consumePnL]
    rw [if_neg (not_le.mpr hr)]
    have h2 : l.quantity ≤ r := by linarith
    rw [if_pos h2]
    cases rest with
    | nil => simp [consumePnL, queueQty]
    | cons l2 rest2 =>
      have hpos2 : 0 < queueQty (l2 :: rest2) := by
        have hq2 := hrest l2 (List.mem_cons_self _ _)
        have hq3 := queueQty_nonneg rest2
          (fun x hx => hrest x (List.mem_cons_of_mem _ hx))
        rw [queueQty_cons]
        linarith
      rw [queueQty_cons] at hle hpos2
      rw [ih (r - l.quantity) hrest (by rw [queueQty_cons]; linarith)
        (by linarith)]
      simp [add_assoc]

/-- C9: in the from-scratch realized-PnL replay, a sell exceeding the total
quantity of that asset's FIFO queue is not an error: the matched portion
contributes its fragments' PnL, the unmatched remainder contributes nothing,
and the queue is left empty; concretely Buy(1 @ 100) then an oversized
Sell(2 @ 120) yields realized PnL 20. -/
theorem c9_oversell_silently_dropped :
    (∀ (qs : String → List Lot) (acc : ℚ) (t : MTrade),
      t.side = .sell →
      lotsPos (qs t.baseSymbol) →
      queueQty (qs t.baseSymbol) < t.baseQuantity →
      pnlStep (qs, acc) t
        = (updateMap qs t.baseSymbol [],
           acc + ((qs t.baseSymbol).map
             (fun l => (t.price - l.price) * l.quantity)).sum)) ∧
    calculateRealizedPnL [⟨"BTC", .buy, 1, 100⟩, ⟨"BTC", .sell, 2, 120⟩] = 20 := by
  constructor
  · intro qs acc t hside hlots hover
    obtain ⟨sym, side, tq, tp⟩ := t
    cases hside
    have htq : 0 < tq := lt_of_le_of_lt (queueQty_nonneg _ hlots) hover
    simp only [pnlStep,
      consumePnL_exhausts tp _ tq hlots (le_of_lt hover) htq]
  · norm_num [calculateRealizedPnL, pnlStep, consumePnL, updateMap]

/-- Witness for C9 at the concrete queue [1 @ 100] and the oversized
Sell(2 @ 120). -/
theorem c9_oversell_silently_dropped_witness :
    (MTrade.mk "BTC" .sell 2 120).side = .sell ∧
    lotsPos ((fun _ => [(⟨1, 100⟩ : Lot)]) (MTrade.mk "BTC" .sell 2 120).baseSymbol) ∧
    queueQty ((fun _ => [(⟨1, 100⟩ : Lot)]) (MTrade.mk "BTC" .sell 2 120).baseSymbol)
      < (MTrade.mk "BTC" .sell 2 120).baseQuantity ∧
    pnlStep ((fun _ => [(⟨1, 100⟩ : Lot)]), (0 : ℚ)) (MTrade.mk "BTC" .sell 2 120)
      = (updateMap (fun _ => [(⟨1, 100⟩ : Lot)]) "BTC" [],
         0 + (([(⟨1, 100⟩ : Lot)]).map
           (fun l => ((120 : ℚ) - l.price) * l.quantity)).sum) := by
  have hlots : lotsPos [(⟨1, 100⟩ : Lot)] := by
    intro l hl
    simp at hl
    subst hl
    norm_num
  have hover : queueQty [(⟨1, 100⟩ : Lot)] < (2 : ℚ) := by
    norm_num [queueQty]
  exact ⟨rfl, hlots, hover,
    c9_oversell_silently_dropped.1 (fun _ => [(⟨1, 100⟩ : Lot)]) 0
      (MTrade.mk "BTC" .sell 2 120) rfl hlots hover⟩


/-- C4: a sell whose quantity exceeds the held base-asset quantity is
rejected by the balance validation, which runs before the trade row is
inserted: `createOrder` returns the state unchanged together with the error,
so no trade record is persisted, the portfolio is unchanged, and the
derived realized PnL is unchanged. -/
theorem c4_insufficient_sell_rejected (st : AccountState)
    (baseSymbol quoteSymbol : String) (price baseQuantity : ℚ)
    (h : getAssetBalance st baseSymbol < baseQuantity) :
    createOrder st baseSymbol quoteSymbol price baseQuantity .sell
      = (st, some "Insufficient base balance") ∧
    (createOrder st baseSymbol quoteSymbol price baseQuantity .sell).1.trades
      = st.trades ∧
    (createOrder st baseSymbol quoteSymbol price baseQuantity .sell).1.portfolio
      = st.portfolio ∧
    calculateRealizedPnL
      (createOrder st baseSymbol quoteSymbol price baseQuantity .sell).1.trades
      = calculateRealizedPnL st.trades := by
  have hmain : createOrder st baseSymbol quoteSymbol price baseQuantity .sell
      = (st, some "Insufficient base balance") := by
    simp only [createOrder, if_pos h]
  exact ⟨hmain, by rw [hmain], by rw [hmain], by rw [hmain]⟩

/-- Witness for C4: starting from 1000 USDC, Buy(1 @ 100) executes, after
which Sell(2 @ 100) is rejected and the BTC position remains (1, 100). -/
theorem c4_insufficient_sell_rejected_witness :
    getAssetBalance
      ((createOrder ⟨[], fun s => if s = "USDC" then some ⟨1000, 1⟩ else none⟩
        "BTC" "USDC" 100 1 .buy).1) "BTC" < 2 ∧
    ((createOrder ⟨[], fun s => if s = "USDC" then some ⟨1000, 1⟩ else none⟩
        "BTC" "USDC" 100 1 .buy).1).portfolio "BTC" = some ⟨1, 100⟩ ∧
    createOrder
      ((createOrder ⟨[], fun s => if s = "USDC" then some ⟨1000, 1⟩ else none⟩
        "BTC" "USDC" 100 1 .buy).1) "BTC" "USDC" 100 2 .sell
      = (((createOrder ⟨[], fun s => if s = "USDC" then some ⟨1000, 1⟩ else none⟩
          "BTC" "USDC" 100 1 .buy).1), some "Insufficient base balance") := by
  have hbal : getAssetBalance
      ((createOrder ⟨[], fun s => if s = "USDC" then some ⟨1000, 1⟩ else none⟩
        "BTC" "USDC" 100 1 .buy).1) "BTC" < 2 := by
    simp [createOrder, createOrder.createOrderExec, getAssetBalance,
      updatePortfolio, updateUSDCBalance, updateMap, historyFor]
    norm_num [updateMap]
    simp
  have hpos : ((createOrder ⟨[], fun s => if s = "USDC" then some ⟨1000, 1⟩ else none⟩
      "BTC" "USDC" 100 1 .buy).1).portfolio "BTC" = some ⟨1, 100⟩ := by
    simp [createOrder, createOrder.createOrderExec, getAssetBalance,
      updatePortfolio, updateUSDCBalance, updateMap, historyFor]
    norm_num [updateMap]
    simp
  exact ⟨hbal, hpos,
    (c4_insufficient_sell_rejected _ "BTC" "USDC" 100 2 hbal).1⟩


theorem sumBuyQty_append (acc : List Trade) (t : Trade) :
    sumBuyQty (acc ++ [t])
      = sumBuyQty acc + (if t.side = .buy then t.quantity else 0) := by
  by_cases h : t.side = .buy <;>
    simp [sumBuyQty, List.filter_append, h]

theorem sumSellQty_append (acc : List Trade) (t : Trade) :
    sumSellQty (acc ++ [t])
      = sumSellQty acc + (if t.side = .sell then t.quantity else 0) := by
  by_cases h : t.side = .sell <;>
    simp [sumSellQty, List.filter_append, h]

/-- Invariant of `applyRequests`: the held quantity always equals accepted
buys minus accepted sells and never goes negative. -/
theorem applyRequests_invariant (ts : List Trade) :
    ∀ (acc : List Trade) (pos : Option Position),
    (∀ t ∈ ts, 0 < t.quantity) →
    posQty pos = sumBuyQty acc - sumSellQty acc →
    0 ≤ posQty pos →
    posQty (applyRequests ts acc pos).2
        = sumBuyQty (applyRequests ts acc pos).1
          - sumSellQty (applyRequests ts acc pos).1
      ∧ 0 ≤ posQty (applyRequests ts acc pos).2 := by
  induction ts with
  | nil =>
    intro acc pos _ h1 h2
    exact ⟨by simpa [applyRequests] using h1, by simpa [applyRequests] using h2⟩
  | cons t rest ih =>
    intro acc pos hq h1 h2
    have htq : 0 < t.quantity := hq t (List.mem_cons_self _ _)
    have hrest : ∀ x ∈ rest, 0 < x.quantity :=
      fun x hx => hq x (List.mem_cons_of_mem _ hx)
    have hb := sumBuyQty_append acc t
    have hs := sumSellQty_append acc t
    obtain ⟨side, tq, tp⟩ := t
    simp only at htq hb hs
    cases side with
    | buy =>
      simp at hb hs
      cases pos with
      | none =>
        simp only [applyRequests, updatePortfolio]
        apply ih _ _ hrest
        · simp only [posQty] at h1 ⊢
          rw [hb, hs]
          linarith
        · simp only [posQty]
          linarith
      | some cur =>
        simp only [applyRequests, updatePortfolio]
        apply ih _ _ hrest
        · simp only [posQty] at h1 ⊢
          rw [hb, hs]
          linarith
        · simp only [posQty] at h2 ⊢
          linarith
    | sell =>
      simp at hb hs
      cases pos with
      | none =>
        simp only [applyRequests, updatePortfolio]
        exact ih acc none hrest h1 h2
      | some cur =>
        by_cases hlt : cur.quantity < tq
        · simp only [applyRequests, updatePortfolio, if_pos hlt]
          exact ih acc (some cur) hrest h1 h2
        · by_cases hz : cur.quantity - tq = 0
          · simp only [applyRequests, updatePortfolio, if_neg hlt, if_pos hz]
            apply ih _ _ hrest
            · simp only [posQty] at h1 ⊢
              rw [hb, hs]
              linarith
            · simp [posQty]
          · simp only [applyRequests, updatePortfolio, if_neg hlt, if_neg hz]
            apply ih _ _ hrest
            · simp only [posQty] at h1 ⊢
              rw [hb, hs]
              linarith
            · simp only [posQty] at h2 ⊢
              have := not_lt.mp hlt
              linarith

/-- C5: for every sequence of trade requests on one (user, asset) with
positive quantities, after every prefix the held quantity equals the sum of
accepted buy quantities minus the sum of accepted sell quantities, and it is
never negative — an over-selling request is rejected (skipped) rather than
clamping the position. -/
theorem c5_conservation (ts : List Trade) (hq : ∀ t ∈ ts, 0 < t.quantity)
    (p : List Trade) (hp : p <+: ts) :
    posQty (applyRequests p [] none).2
        = sumBuyQty (applyRequests p [] none).1
          - sumSellQty (applyRequests p [] none).1
      ∧ 0 ≤ posQty (applyRequests p [] none).2 := by
  obtain ⟨r, rfl⟩ := hp
  have hqp : ∀ t ∈ p, 0 < t.quantity :=
    fun t ht => hq t (List.mem_append.mpr (Or.inl ht))
  exact applyRequests_invariant p [] none hqp
    (by simp [posQty, sumBuyQty, sumSellQty]) (by simp [posQty])

/-- Witness for C5 at Buy(2 @ 100), over-selling Sell(5 @ 100) (rejected),
Sell(1 @ 100). -/
theorem c5_conservation_witness :
    (∀ t ∈ [(⟨.buy, 2, 100⟩ : Trade), ⟨.sell, 5, 100⟩, ⟨.sell, 1, 100⟩],
      0 < t.quantity) ∧
    (posQty (applyRequests [(⟨.buy, 2, 100⟩ : Trade), ⟨.sell, 5, 100⟩,
          ⟨.sell, 1, 100⟩] [] none).2
        = sumBuyQty (applyRequests [(⟨.buy, 2, 100⟩ : Trade), ⟨.sell, 5, 100⟩,
            ⟨.sell, 1, 100⟩] [] none).1
          - sumSellQty (applyRequests [(⟨.buy, 2, 100⟩ : Trade), ⟨.sell, 5, 100⟩,
              ⟨.sell, 1, 100⟩] [] none).1
      ∧ 0 ≤ posQty (applyRequests [(⟨.buy, 2, 100⟩ : Trade), ⟨.sell, 5, 100⟩,
          ⟨.sell, 1, 100⟩] [] none).2) := by
  have hq : ∀ t ∈ [(⟨.buy, 2, 100⟩ : Trade), ⟨.sell, 5, 100⟩, ⟨.sell, 1, 100⟩],
      0 < t.quantity := by
    intro t ht
    simp only [List.mem_cons, List.not_mem_nil, or_false] at ht
    rcases ht with rfl | rfl | rfl <;> norm_num
  exact ⟨hq, c5_conservation _ hq _ ⟨[], by simp⟩⟩


/-- C7: every holding reported by `getPortfolio` carries
`unrealized_pnl = (current_price - avg_buying_price) * quantity` and is not
USDC (USDC is reported separately as a balance); the account total unrealized
PnL is the sum of that value over the non-USDC rows with positive quantity;
`getPnL` returns `total_pnl = realized + unrealized`; and the concrete
position (1, 92000) at price 90000 reports unrealized -2000. -/
theorem c7_unrealized_pnl (rows : List PortfolioRow) (price : String → ℚ)
    (trades : List MTrade) :
    (∀ h ∈ (getPortfolio rows price).1,
      h.unrealizedPnl = (h.currentPrice - h.avgBuyingPrice) * h.quantity ∧
      h.symbol ≠ "USDC") ∧
    calculateUnrealizedPnL rows price
      = (((rows.filter (fun r => 0 < r.quantity)).filter
            (fun r => r.symbol ≠ "USDC")).map
          (fun r => (price r.symbol - r.avgBuyingPrice) * r.quantity)).sum ∧
    (getPnL trades rows price).totalPnl
      = calculateRealizedPnL trades + calculateUnrealizedPnL rows price ∧
    (getPortfolio [⟨"BTC", 1, 92000⟩] (fun _ => 90000)).1
      = [⟨"BTC", 1, 92000, 90000, -2000⟩] := by
  refine ⟨?_, ?_, rfl, ?_⟩
  · intro h hh
    simp only [getPortfolio, List.mem_filterMap] at hh
    obtain ⟨r, hr, hf⟩ := hh
    by_cases hu : r.symbol = "USDC"
    · rw [if_pos hu] at hf
      exact absurd hf (by simp)
    · rw [if_neg hu] at hf
      obtain rfl := Option.some.inj hf
      exact ⟨rfl, hu⟩
  · simp only [calculateUnrealizedPnL, getPortfolio]
    induction rows.filter (fun r => 0 < r.quantity) with
    | nil => simp
    | cons r l ih =>
      by_cases hu : r.symbol = "USDC"
      · simp [List.filterMap_cons, List.filter_cons, hu, ih]
      · simp [List.filterMap_cons, List.filter_cons, hu, ih]
  · simp [getPortfolio]
    norm_num


/-- Witness for C7 at one BTC row (1, 92000) marked at 90000. -/
theorem c7_unrealized_pnl_witness :
    (⟨"BTC", 1, 92000, 90000, -2000⟩ : Holding)
      ∈ (getPortfolio [⟨"BTC", 1, 92000⟩] (fun _ => 90000)).1 ∧
    ((⟨"BTC", 1, 92000, 90000, -2000⟩ : Holding).unrealizedPnl
        = ((⟨"BTC", 1, 92000, 90000, -2000⟩ : Holding).currentPrice
            - (⟨"BTC", 1, 92000, 90000, -2000⟩ : Holding).avgBuyingPrice)
          * (⟨"BTC", 1, 92000, 90000, -2000⟩ : Holding).quantity ∧
      (⟨"BTC", 1, 92000, 90000, -2000⟩ : Holding).symbol ≠ "USDC") := by
  have hmem : (⟨"BTC", 1, 92000, 90000, -2000⟩ : Holding)
      ∈ (getPortfolio [⟨"BTC", 1, 92000⟩] (fun _ => 90000)).1 := by
    simp [getPortfolio]
    norm_num
  exact ⟨hmem,
    (c7_unrealized_pnl [⟨"BTC", 1, 92000⟩] (fun _ => 90000) []).1 _ hmem⟩

/-- C8: `getPrice` never propagates an error to its caller: it always returns
a price — the fresh cached value, or the successfully parsed fetch result —
and under every failure of the external fetch (thrown network error, non-OK
response, malformed payload) as well as for a symbol with no feed id, it
returns the static fallback `FALLBACK_PRICES[symbol] || 0` (given no fresh
cache entry; a fresh cache entry is itself returned without fetching). -/
theorem c8_getPrice_never_fails (cache : String → Option CacheEntry)
    (now ttl : ℤ) (symbol : String) (fetch : FetchOutcome) :
    ((∃ c, cache symbol = some c ∧ now - c.timestamp < ttl ∧
        (getPrice cache now ttl symbol fetch).1 = c.price) ∨
     (∃ v e, fetch = .parsedOk v e ∧
        (getPrice cache now ttl symbol fetch).1 = v * (10 : ℚ) ^ e) ∨
     (getPrice cache now ttl symbol fetch).1 = fallbackPrice symbol) ∧
    ((∀ c, cache symbol = some c → ¬ now - c.timestamp < ttl) →
     ((∀ v e, fetch ≠ .parsedOk v e) ∨ hasPriceFeedId symbol = false) →
     (getPrice cache now ttl symbol fetch).1 = fallbackPrice symbol) := by
  have hfetch : ∀ (hmiss :
      getPrice cache now ttl symbol fetch
        = getPrice.getPriceFetch cache now symbol fetch),
      ((∃ v e, fetch = .parsedOk v e ∧
          (getPrice cache now ttl symbol fetch).1 = v * (10 : ℚ) ^ e) ∨
       (getPrice cache now ttl symbol fetch).1 = fallbackPrice symbol) := by
    intro hmiss
    rw [hmiss]
    by_cases hid : hasPriceFeedId symbol
    · cases fetch with
      | fetchError => right; simp [getPrice.getPriceFetch, getPriceAttempt, hid]
      | httpError status => right; simp [getPrice.getPriceFetch, getPriceAttempt, hid]
      | malformed => right; simp [getPrice.getPriceFetch, getPriceAttempt, hid]
      | parsedOk v e =>
        left
        exact ⟨v, e, rfl, by simp [getPrice.getPriceFetch, getPriceAttempt, hid]⟩
    · right
      simp only [getPrice.getPriceFetch, getPriceAttempt, if_neg hid]
  constructor
  · cases hc : cache symbol with
    | none =>
      have hmiss : getPrice cache now ttl symbol fetch
          = getPrice.getPriceFetch cache now symbol fetch := by
        simp [getPrice, hc]
      rcases hfetch hmiss with h | h
      · exact Or.inr (Or.inl h)
      · exact Or.inr (Or.inr h)
    | some c =>
      by_cases hfresh : now - c.timestamp < ttl
      · left
        exact ⟨c, rfl, hfresh, by simp [getPrice, hc, hfresh]⟩
      · have hmiss : getPrice cache now ttl symbol fetch
            = getPrice.getPriceFetch cache now symbol fetch := by
          simp [getPrice, hc, hfresh]
        rcases hfetch hmiss with h | h
        · exact Or.inr (Or.inl h)
        · exact Or.inr (Or.inr h)
  · intro hstale hfail
    have hmiss : getPrice cache now ttl symbol fetch
        = getPrice.getPriceFetch cache now symbol fetch := by
      cases hc : cache symbol with
      | none => simp [getPrice, hc]
      | some c => simp [getPrice, hc, hstale c hc]
    rcases hfetch hmiss with ⟨v, e, hpe, _⟩ | h
    · rcases hfail with hfail | hfail
      · exact absurd hpe (hfail v e)
      · rw [hmiss]
        subst hpe
        simp only [getPrice.getPriceFetch, getPriceAttempt, if_neg
          (by simp [hfail] : ¬ hasPriceFeedId symbol = true)]
    · exact h

/-- Witness for C8: cold cache, symbol BTC, thrown fetch error — the result
is the static fallback 90000. -/
theorem c8_getPrice_never_fails_witness :
    (∀ c, (fun _ => (none : Option CacheEntry)) "BTC" = some c →
      ¬ ((0 : ℤ) - c.timestamp < 60000)) ∧
    (getPrice (fun _ => none) 0 60000 "BTC" .fetchError).1
      = fallbackPrice "BTC" := by
  have hstale : ∀ c, (fun _ => (none : Option CacheEntry)) "BTC" = some c →
      ¬ ((0 : ℤ) - c.timestamp < 60000) := by
    intro c hc
    exact absurd hc (by simp)
  exact ⟨hstale,
    (c8_getPrice_never_fails (fun _ => none) 0 60000 "BTC" .fetchError).2 hstale
      (Or.inl (fun v e h => by cases h))⟩


/-- C10: a successfully executed order moves the USDC (quote) balance by
exactly `price * base_quantity` in the opposite direction of the base asset:
a buy deducts it (and is rejected when the USDC balance is insufficient),
a sell adds it, creating the USDC row with `avg_buying_price = 1` when
absent. -/
theorem c10_usdc_settlement (st : AccountState) (baseSymbol quoteSymbol : String)
    (price baseQuantity : ℚ) (side : Side)
    (hp : 0 < price) (hq : 0 < baseQuantity) (hne : baseSymbol ≠ quoteSymbol) :
    ((createOrder st baseSymbol quoteSymbol price baseQuantity side).2 = none →
      getAssetBalance
          (createOrder st baseSymbol quoteSymbol price baseQuantity side).1
          quoteSymbol
        = getAssetBalance st quoteSymbol
          + (match side with
             | .buy => -(price * baseQuantity)
             | .sell => price * baseQuantity)) ∧
    (side = .buy → getAssetBalance st quoteSymbol < price * baseQuantity →
      createOrder st baseSymbol quoteSymbol price baseQuantity side
        = (st, some "Insufficient quote balance")) ∧
    (side = .sell → st.portfolio quoteSymbol = none →
      (createOrder st baseSymbol quoteSymbol price baseQuantity side).2 = none →
      (createOrder st baseSymbol quoteSymbol price baseQuantity side).1.portfolio
          quoteSymbol
        = some ⟨price * baseQuantity, 1⟩) := by
  have hqq : quoteSymbol ≠ baseSymbol := Ne.symm hne
  have hquote : 0 < price * baseQuantity := mul_pos hp hq
  cases side with
  | buy =>
    refine ⟨?_, ?_, ?_⟩
    · intro hsucc
      by_cases hlt : getAssetBalance st quoteSymbol < price * baseQuantity
      · exfalso
        simp only [createOrder, if_pos hlt] at hsucc
        exact Option.noConfusion hsucc
      · cases hcq : st.portfolio quoteSymbol with
        | none =>
          exfalso
          apply hlt
          rw [getAssetBalance, hcq]
          exact hquote
        | some cur =>
          have hbal : getAssetBalance st quoteSymbol = cur.quantity := by
            rw [getAssetBalance, hcq]
          have hge : price * baseQuantity ≤ cur.quantity := by
            rw [hbal] at hlt
            exact not_lt.mp hlt
          have hnn : ¬ cur.quantity - price * baseQuantity < 0 :=
            not_lt.mpr (sub_nonneg.mpr hge)
          have hlt2 : ¬ cur.quantity < price * baseQuantity := not_lt.mpr hge
          cases hcb : st.portfolio baseSymbol with
          | none =>
            by_cases hz : cur.quantity - price * baseQuantity = 0
            · simp only [createOrder, if_neg hlt, createOrder.createOrderExec,
                hcb, updatePortfolio, updateMap, if_neg hqq, hcq,
                updateUSDCBalance, if_neg hnn, if_pos hz, getAssetBalance,
                hbal, if_neg hlt2, if_pos rfl, if_true]
              linarith
            · simp only [createOrder, if_neg hlt, createOrder.createOrderExec,
                hcb, updatePortfolio, updateMap, if_neg hqq, hcq,
                updateUSDCBalance, if_neg hnn, if_neg hz, getAssetBalance,
                hbal, if_neg hlt2, if_pos rfl, if_true]
              ring
          | some curb =>
            by_cases hz : cur.quantity - price * baseQuantity = 0
            · simp only [createOrder, if_neg hlt, createOrder.createOrderExec,
                hcb, updatePortfolio, updateMap, if_neg hqq, hcq,
                updateUSDCBalance, if_neg hnn, if_pos hz, getAssetBalance,
                hbal, if_neg hlt2, if_pos rfl, if_true]
              linarith
            · simp only [createOrder, if_neg hlt, createOrder.createOrderExec,
                hcb, updatePortfolio, updateMap, if_neg hqq, hcq,
                updateUSDCBalance, if_neg hnn, if_neg hz, getAssetBalance,
                hbal, if_neg hlt2, if_pos rfl, if_true]
              ring
    · intro _ hlt
      simp only [createOrder, if_pos hlt]
    · intro h
      exact absurd h (by simp)
  | sell =>
    have hbase : (createOrder st baseSymbol quoteSymbol price baseQuantity .sell).2 = none →
        ¬ getAssetBalance st baseSymbol < baseQuantity := by
      intro hsucc hlt
      simp only [createOrder, if_pos hlt] at hsucc
      exact Option.noConfusion hsucc
    refine ⟨?_, ?_, ?_⟩
    · intro hsucc
      have hlt := hbase hsucc
      cases hcb : st.portfolio baseSymbol with
      | none =>
        exfalso
        apply hlt
        rw [getAssetBalance, hcb]
        exact hq
      | some curb =>
        have hbb : getAssetBalance st baseSymbol = curb.quantity := by
          rw [getAssetBalance, hcb]
        have hgeb : baseQuantity ≤ curb.quantity := by
          rw [hbb] at hlt
          exact not_lt.mp hlt
        have hnltb : ¬ curb.quantity < baseQuantity := not_lt.mpr hgeb
        cases hcq : st.portfolio quoteSymbol with
        | none =>
          by_cases hz : curb.quantity - baseQuantity = 0
          · simp only [createOrder, if_neg hlt, createOrder.createOrderExec,
              hcb, updatePortfolio, if_neg hnltb, if_pos hz, updateMap,
              if_neg hqq, hcq, updateUSDCBalance, getAssetBalance, if_pos rfl, if_true]
            ring
          · simp only [createOrder, if_neg hlt, createOrder.createOrderExec,
              hcb, updatePortfolio, if_neg hnltb, if_neg hz, updateMap,
              if_neg hqq, hcq, updateUSDCBalance, getAssetBalance, if_pos rfl, if_true]
            ring
        | some cur =>
          have hbal : getAssetBalance st quoteSymbol = cur.quantity := by
            rw [getAssetBalance, hcq]
          by_cases hz : curb.quantity - baseQuantity = 0
          · simp only [createOrder, if_neg hlt, createOrder.createOrderExec,
              hcb, updatePortfolio, if_neg hnltb, if_pos hz, updateMap,
              if_neg hqq, hcq, updateUSDCBalance, getAssetBalance,
              hbal, if_pos rfl, if_true]
          · simp only [createOrder, if_neg hlt, createOrder.createOrderExec,
              hcb, updatePortfolio, if_neg hnltb, if_neg hz, updateMap,
              if_neg hqq, hcq, updateUSDCBalance, getAssetBalance,
              hbal, if_pos rfl, if_true]
    · intro h
      exact absurd h (by simp)
    · intro _ hcq hsucc
      have hlt := hbase hsucc
      cases hcb : st.portfolio baseSymbol with
      | none =>
        exfalso
        apply hlt
        rw [getAssetBalance, hcb]
        exact hq
      | some curb =>
        have hbb : getAssetBalance st baseSymbol = curb.quantity := by
          rw [getAssetBalance, hcb]
        have hgeb : baseQuantity ≤ curb.quantity := by
          rw [hbb] at hlt
          exact not_lt.mp hlt
        have hnltb : ¬ curb.quantity < baseQuantity := not_lt.mpr hgeb
        by_cases hz : curb.quantity - baseQuantity = 0
        · simp only [createOrder, if_neg hlt, createOrder.createOrderExec,
            hcb, updatePortfolio, if_neg hnltb, if_pos hz, updateMap,
            if_neg hqq, hcq, updateUSDCBalance, if_pos rfl, if_true]
        · simp only [createOrder, if_neg hlt, createOrder.createOrderExec,
            hcb, updatePortfolio, if_neg hnltb, if_neg hz, updateMap,
            if_neg hqq, hcq, updateUSDCBalance, if_pos rfl, if_true]


/-- Witness for C10: from 1000 USDC, Buy(1 @ 100) of BTC succeeds and moves
the USDC balance by exactly -100. -/
theorem c10_usdc_settlement_witness :
    (0 : ℚ) < 100 ∧ (0 : ℚ) < 1 ∧ ("BTC" : String) ≠ "USDC" ∧
    (createOrder ⟨[], fun s => if s = "USDC" then some ⟨1000, 1⟩ else none⟩
        "BTC" "USDC" 100 1 .buy).2 = none ∧
    getAssetBalance
        (createOrder ⟨[], fun s => if s = "USDC" then some ⟨1000, 1⟩ else none⟩
          "BTC" "USDC" 100 1 .buy).1 "USDC"
      = getAssetBalance
          (⟨[], fun s => if s = "USDC" then some ⟨1000, 1⟩ else none⟩ : AccountState)
          "USDC"
        + (match Side.buy with
           | .buy => -((100 : ℚ) * 1)
           | .sell => (100 : ℚ) * 1) := by
  have hsucc : (createOrder ⟨[], fun s => if s = "USDC" then some ⟨1000, 1⟩ else none⟩
      "BTC" "USDC" 100 1 .buy).2 = none := by
    simp [createOrder, createOrder.createOrderExec, getAssetBalance,
      updatePortfolio, updateUSDCBalance, updateMap, historyFor]
    norm_num [updateMap]
  exact ⟨by norm_num, by norm_num, by simp,
    hsucc,
    (c10_usdc_settlement
      ⟨[], fun s => if s = "USDC" then some ⟨1000, 1⟩ else none⟩
      "BTC" "USDC" 100 1 .buy (by norm_num) (by norm_num) (by simp)).1 hsucc⟩

end TradeFox
